import Mathlib

/-!
Verification development for the Uniswap V3 tick-reconstruction core of the
mayarbot repository (`UniswapService` in the latest source iteration):
bitmap scanning, batched tick-data fetching, the tick cache with its
staleness gate, the background refresher, and best-quote selection.

The definitions below are a shallow embedding of that TypeScript source.
Chain reads performed through the multicall provider are modelled by a
`Provider` oracle: `tickBitmap`/`ticksGross`/`ticksNet` give the values the
chain would return for a single call, and `bitmapBatchFails`/`ticksBatchFails`
say whether the aggregated multicall for a given batch of arguments raises
(in the source, `this.multicallProvider.all(batch)` either resolves with one
result per call or rejects as a whole).  Timestamps (`Date.now()`) are
natural numbers of milliseconds.  JSBI / uint256 bitmap words are `Nat`,
tick indices are `Int`.
-/

/-- TickMath.MIN_TICK from the Uniswap V3 SDK, used as the lower bound of the
scanned tick range. -/
def MIN_TICK : Int := -887272

/-- TickMath.MAX_TICK from the Uniswap V3 SDK. -/
def MAX_TICK : Int := 887272

/-- BATCH_SIZE = 700: number of aggregated calls per multicall batch. -/
def BATCH_SIZE : Nat := 700

/-- DEFAULT_BACKGROUND_UPDATE_INTERVAL_MS = 60 * 1000. -/
def DEFAULT_BACKGROUND_UPDATE_INTERVAL_MS : Nat := 60 * 1000

/-- REASONABLE_STALENESS_MS = DEFAULT_BACKGROUND_UPDATE_INTERVAL_MS * 2:
the staleness threshold used by `_fetchAllInitializedTicks`. -/
def REASONABLE_STALENESS_MS : Nat := DEFAULT_BACKGROUND_UPDATE_INTERVAL_MS * 2

/-- A fetched tick record (`new Tick({index, liquidityGross, liquidityNet})`):
`liquidityGross` is a uint, `liquidityNet` a signed big integer. -/
structure Tick where
  index : Int
  liquidityGross : Nat
  liquidityNet : Int
deriving Repr, DecidableEq

/-- Oracle for the chain-read boundary (the multicall provider plus the pool
contract).  A batch of calls either fails as a whole (`…BatchFails` true for
that argument batch) or returns the per-argument values. -/
structure Provider where
  tickBitmap : Int → Nat
  ticksGross : Int → Nat
  ticksNet : Int → Int
  bitmapBatchFails : List Int → Bool
  ticksBatchFails : List Int → Bool

/-- One entry of `this.tickCache`: `{ data: Tick[], timestamp: number }`. -/
structure CacheEntry where
  data : List Tick
  timestamp : Nat
deriving Repr, DecidableEq

/-- The mutable service state relevant to the claims: the tick cache, a map
from pool address to cache entry, modelled as an association list. -/
structure ServiceState where
  tickCache : List (String × CacheEntry)
deriving Repr, DecidableEq

/-- Initial state: `tickCache = new Map()`. -/
def initialState : ServiceState := ⟨[]⟩

/-- Map.get on the tick cache. -/
def cacheGet (st : ServiceState) (k : String) : Option CacheEntry :=
  (st.tickCache.find? (fun p => p.1 = k)).map Prod.snd

/-- Map.set on an association list: replace the entry for `k` or append. -/
def setAssoc (k : String) (e : CacheEntry) :
    List (String × CacheEntry) → List (String × CacheEntry)
  | [] => [(k, e)]
  | p :: ps => if p.1 = k then (k, e) :: ps else p :: setAssoc k e ps

/-- Map.set on the service state. -/
def cacheSet (st : ServiceState) (k : String) (e : CacheEntry) : ServiceState :=
  ⟨setAssoc k e st.tickCache⟩

/-- `_tickToWord(tick, tickSpacing)` from the source:
`Math.floor(tick / tickSpacing)` is floor division (`Int.fdiv`); the JS
remainder `tick % tickSpacing` is nonzero exactly when `tickSpacing` does not
divide `tick`, which agrees with `Int.emod`; `compressed >> 8` on the 32-bit
range used here is floor division by 256. -/
def tickToWord (tick tickSpacing : Int) : Int :=
  let compressed := Int.fdiv tick tickSpacing
  let compressed :=
    if tick < 0 ∧ tick % tickSpacing ≠ 0 then compressed - 1 else compressed
  Int.fdiv compressed 256

/-- The loop `for (let i = minWord; i <= maxWord; i++) wordPositions.push(i)`. -/
def wordRange (minWord maxWord : Int) : List Int :=
  (List.range (maxWord + 1 - minWord).toNat).map (fun (k : Nat) => minWord + (k : Int))

/-- Decoding of one bitmap word (the inner `for (let j = 0; j < 256; j++)`
loop): each set bit yields tick index `(wordIndex * 256 + j) * tickSpacing`,
kept only when within `[MIN_TICK, MAX_TICK]`.  The source skips the bit loop
entirely when the bitmap is zero. -/
def decodeWord (tickSpacing wordIndex : Int) (bitmap : Nat) : List Int :=
  if bitmap ≠ 0 then
    (List.range 256).filterMap (fun j =>
      if bitmap.testBit j then
        let tickIndex := (wordIndex * 256 + (j : Int)) * tickSpacing
        if MIN_TICK ≤ tickIndex ∧ tickIndex ≤ MAX_TICK then some tickIndex
        else none
      else none)
  else []

/-- Decoding of the whole bitmap result array against its word positions
(the outer `for (let i = 0; i < allBitmapResults.length; i++)` loop; on the
success path both lists have equal length, which `zip` reflects). -/
def decodeBitmaps (tickSpacing : Int) (ws : List Int) (bs : List Nat) : List Int :=
  ((ws.zip bs).map (fun p => decodeWord tickSpacing p.1 p.2)).flatten

/-- Worker for the batch slicing: `acc` is the chunk currently being filled
and `cap` the room left in it. -/
def chunksGo (n : Nat) : List α → Nat → List α → List (List α)
  | [], _, acc => [acc]
  | y :: ys, 0, acc => acc :: chunksGo n ys (n - 1) [y]
  | y :: ys, cap + 1, acc => chunksGo n ys cap (acc ++ [y])

/-- The slicing `for (let i = 0; i < xs.length; i += BATCH_SIZE)
xs.slice(i, i + BATCH_SIZE)`, as a list of batches of size `n` (the last one
possibly shorter). -/
def chunksOf (n : Nat) (l : List α) : List (List α) :=
  match l with
  | [] => []
  | x :: xs => chunksGo n xs (n - 1) [x]

/-- Events observable at the chain-read boundary, used to state ordering
properties of a pipeline run. -/
inductive ChainEvent where
  | bitmapBatch (words : List Int)
  | tickBatch (ticks : List Int)
deriving Repr, DecidableEq

/-- Sequential dispatch of the batches of one stage: each batch is awaited in
order; the first rejecting batch aborts the stage (later batches are never
dispatched), mirroring `await this.multicallProvider.all(batch)` inside the
batching loops.  Returns the dispatched-batch trace and `some` of the
concatenated per-call results, or `none` on failure. -/
def runBatches (fails : List Int → Bool) (f : Int → α) (mk : List Int → ChainEvent) :
    List (List Int) → List ChainEvent × Option (List α)
  | [] => ([], some [])
  | c :: cs =>
    if fails c then ([mk c], none)
    else
      let r := runBatches fails f mk cs
      (mk c :: r.1, r.2.map (fun rest => c.map f ++ rest))

/-- One `ticks(idx)` call turned into a Tick record (the
`new Tick({index: tickIndex, liquidityGross, liquidityNet})` construction). -/
def fetchTick (p : Provider) (idx : Int) : Tick :=
  ⟨idx, p.ticksGross idx, p.ticksNet idx⟩

/-- The sorted initialized-tick indices the scan stage would produce for
spacing `s` when every bitmap batch succeeds (`tickIndicesToFetch` after
`sort((a, b) => a - b)`). -/
def scannedIndices (p : Provider) (s : Int) : List Int :=
  let wps := wordRange (tickToWord MIN_TICK s) (tickToWord MAX_TICK s)
  (decodeBitmaps s wps (wps.map p.tickBitmap)).mergeSort (fun a b => a ≤ b)

/-- Result of one on-demand fetch: the state after it, the returned tick
list, and the trace of dispatched batches. -/
structure FetchResult where
  state : ServiceState
  ticks : List Tick
  trace : List ChainEvent
deriving Repr, DecidableEq

/-- The on-demand fetch body of `_fetchAllInitializedTicks` (the inlined
fetch logic after the cache check, lines 535-596 of the latest iteration):
provider re-initialization failure returns `[]`; the bitmap batches are
dispatched, decoded and sorted; a failure in either stage returns `[]`
without touching the cache; a nonempty final list is cached with the current
time and returned.  `mp` is the multicall provider after the
re-initialization attempt (`None` when initialization failed). -/
def onDemandFetchTicks (mp : Option Provider) (now : Nat) (st : ServiceState)
    (poolAddress : String) (tickSpacing : Int) : FetchResult :=
  match mp with
  | none => ⟨st, [], []⟩
  | some p =>
    let minWord := tickToWord MIN_TICK tickSpacing
    let maxWord := tickToWord MAX_TICK tickSpacing
    let wps := wordRange minWord maxWord
    let scan := runBatches p.bitmapBatchFails p.tickBitmap ChainEvent.bitmapBatch
      (chunksOf BATCH_SIZE wps)
    match scan.2 with
    | none => ⟨st, [], scan.1⟩
    | some bitmaps =>
      let idxs := (decodeBitmaps tickSpacing wps bitmaps).mergeSort (fun a b => a ≤ b)
      if idxs.isEmpty then ⟨st, [], scan.1⟩
      else
        let dat := runBatches p.ticksBatchFails (fetchTick p) ChainEvent.tickBatch
          (chunksOf BATCH_SIZE idxs)
        match dat.2 with
        | none => ⟨st, [], scan.1 ++ dat.1⟩
        | some ticks =>
          if ticks.isEmpty then ⟨st, [], scan.1 ++ dat.1⟩
          else ⟨cacheSet st poolAddress ⟨ticks, now⟩, ticks, scan.1 ++ dat.1⟩

/-- `_fetchAllInitializedTicks(poolAddress, tickSpacing, fee)`: a cache entry
younger than `REASONABLE_STALENESS_MS` is returned directly; otherwise (stale
entry or cache miss) the on-demand fetch runs. -/
def fetchAllInitializedTicks (mp : Option Provider) (now : Nat) (st : ServiceState)
    (poolAddress : String) (tickSpacing : Int) : FetchResult :=
  match cacheGet st poolAddress with
  | some cachedEntry =>
    if now - cachedEntry.timestamp < REASONABLE_STALENESS_MS then
      ⟨st, cachedEntry.data, []⟩
    else onDemandFetchTicks mp now st poolAddress tickSpacing
  | none => onDemandFetchTicks mp now st poolAddress tickSpacing

/-- `_refreshTickDataForPool(poolAddress, tickSpacing, fee)`, the background
refresh body: identical scan+decode+fetch pipeline, but all errors are caught
and logged, every failure path (`provider unavailable`, a failing batch, no
decoded indices, no ticks) returns without touching the cache, and only a
successful nonempty fetch replaces the entry. -/
def refreshTickDataForPool (mp : Option Provider) (now : Nat) (st : ServiceState)
    (poolAddress : String) (tickSpacing : Int) : ServiceState :=
  match mp with
  | none => st
  | some p =>
    let wps := wordRange (tickToWord MIN_TICK tickSpacing) (tickToWord MAX_TICK tickSpacing)
    let scan := runBatches p.bitmapBatchFails p.tickBitmap ChainEvent.bitmapBatch
      (chunksOf BATCH_SIZE wps)
    match scan.2 with
    | none => st
    | some bitmaps =>
      let idxs := (decodeBitmaps tickSpacing wps bitmaps).mergeSort (fun a b => a ≤ b)
      if idxs.isEmpty then st
      else
        match (runBatches p.ticksBatchFails (fetchTick p) ChainEvent.tickBatch
          (chunksOf BATCH_SIZE idxs)).2 with
        | none => st
        | some ticks =>
          if ticks.isEmpty then st
          else cacheSet st poolAddress ⟨ticks, now⟩

/-- The fee tiers known to `feeToTickSpacing`. -/
inductive FeeAmount where
  | LOWEST
  | LOW
  | MEDIUM
  | HIGH
deriving Repr, DecidableEq

/-- `feeToTickSpacing(feeAmount)`. -/
def feeToTickSpacing : FeeAmount → Int
  | .LOWEST => 1
  | .LOW => 10
  | .MEDIUM => 60
  | .HIGH => 200

/-- `feeTiersToTry` hard-coded in `getBestV3TradeExactIn`. -/
def feeTiersToTry : List FeeAmount := [FeeAmount.LOWEST]

/-- External (Uniswap SDK / single-call) behavior for one fee tier inside the
`getBestV3TradeExactIn` loop: the `slot0()` tick and `liquidity()` values
(`none` when one of those awaited calls rejects, caught as
`poolSetupError`), whether `TickListDataProvider`/`Pool` construction
succeeds (a throw is caught by the same outer catch), and the raw output
amount of `Trade.fromRoute` (`none` when it throws, caught as
`tradeError`). -/
structure TierData where
  slot0AndLiquidity : Option (Int × Nat)
  poolOk : Bool
  tradeOutput : Option Nat

/-- The failure taxonomy visible at the `getBestV3TradeExactIn` interface. -/
inductive QuoteError where
  | multicallInitFailed
  | noRouteFound
deriving Repr, DecidableEq

/-- One iteration of the fee-tier loop: `slot0`/`liquidity` rejection is
caught and the tier skipped; `_fetchAllInitializedTicks` runs (possibly
updating the cache); zero total liquidity or an empty tick list skips the
tier (`continue`); a pool-construction throw or a `Trade.fromRoute` throw is
caught and the tier skipped; otherwise the tier yields its output amount. -/
def evalTier (mp : Option Provider) (now : Nat) (st : ServiceState)
    (addr : String) (s : Int) (td : TierData) : ServiceState × Option Nat :=
  match td.slot0AndLiquidity with
  | none => (st, none)
  | some (_, liq) =>
    let r := fetchAllInitializedTicks mp now st addr s
    if liq = 0 ∨ r.ticks.isEmpty then (r.state, none)
    else if td.poolOk then
      match td.tradeOutput with
      | none => (r.state, none)
      | some out => (r.state, some out)
    else (r.state, none)

/-- Per-tier environment of one `getBestV3TradeExactIn` call: the derived
pool address (`Pool.getAddress` of the sorted pair, fee and factory) and the
external tier behavior. -/
structure QuoteEnv where
  poolAddress : FeeAmount → String
  chain : FeeAmount → TierData

/-- The `for (const fee of feeTiersToTry)` loop with its running `bestTrade`:
a tier's output replaces the best only when strictly greater
(`trade.outputAmount.greaterThan(bestTrade.outputAmount)`). -/
def bestTradeLoop (mp : Option Provider) (now : Nat) (env : QuoteEnv) :
    List FeeAmount → ServiceState → Option Nat → ServiceState × Option Nat
  | [], st, best => (st, best)
  | f :: rest, st, best =>
    let r := evalTier mp now st (env.poolAddress f) (feeToTickSpacing f) (env.chain f)
    let best' :=
      match r.2, best with
      | some out, some b => if b < out then some out else some b
      | some out, none => some out
      | none, b => b
    bestTradeLoop mp now env rest r.1 best'

/-- `getBestV3TradeExactIn`: ensure the multicall provider (throwing
`MulticallProvider initialization failed` when unavailable), run the fee-tier
loop, return the best trade or throw `No V3 route found`. -/
def getBestV3TradeExactIn (mp : Option Provider) (now : Nat) (env : QuoteEnv)
    (tiers : List FeeAmount) (st : ServiceState) :
    ServiceState × Except QuoteError Nat :=
  match mp with
  | none => (st, Except.error QuoteError.multicallInitFailed)
  | some _ =>
    let r := bestTradeLoop mp now env tiers st none
    match r.2 with
    | some best => (r.1, Except.ok best)
    | none => (r.1, Except.error QuoteError.noRouteFound)

/-- Output amounts of exactly the tiers that succeed (reach the
`bestTrade` comparison), in loop order, with the cache state threaded the
way the loop threads it. -/
def tierOutcomes (mp : Option Provider) (now : Nat) (env : QuoteEnv) :
    List FeeAmount → ServiceState → List Nat
  | [], _ => []
  | f :: rest, st =>
    let r := evalTier mp now st (env.poolAddress f) (feeToTickSpacing f) (env.chain f)
    match r.2 with
    | some out => out :: tierOutcomes mp now env rest r.1
    | none => tierOutcomes mp now env rest r.1

/-- The scan stage dispatched a batch that fails: some slice of the word
range rejects. -/
def scanBatchFailed (p : Provider) (s : Int) : Prop :=
  ∃ c ∈ chunksOf BATCH_SIZE
      (wordRange (tickToWord MIN_TICK s) (tickToWord MAX_TICK s)),
    p.bitmapBatchFails c = true

/-- The tick-data stage dispatched a batch that fails: some slice of the
sorted decoded indices rejects. -/
def tickBatchFailed (p : Provider) (s : Int) : Prop :=
  ∃ c ∈ chunksOf BATCH_SIZE (scannedIndices p s), p.ticksBatchFails c = true

/-- The cache cannot serve the request directly: no entry, or the entry's
age has reached the staleness threshold. -/
def staleOrMiss (st : ServiceState) (poolAddress : String) (now : Nat) : Prop :=
  cacheGet st poolAddress = none ∨
    ∃ e, cacheGet st poolAddress = some e ∧
      REASONABLE_STALENESS_MS ≤ now - e.timestamp

/-- Cache invariant: every stored entry holds a nonempty tick list. -/
def cacheInv (st : ServiceState) : Prop :=
  ∀ k e, cacheGet st k = some e → e.data ≠ []

/-- A provider whose every read returns zero and whose batches never fail,
used as a concrete instantiation point. -/
def trivialProvider : Provider :=
  ⟨fun _ => 0, fun _ => 0, fun _ => 0, fun _ => false, fun _ => false⟩

/-- A provider whose bitmap batches always reject, used as a concrete
failure instantiation point. -/
def failingProvider : Provider :=
  ⟨fun _ => 0, fun _ => 0, fun _ => 0, fun _ => true, fun _ => false⟩

/-- A concrete cache state holding one entry for pool "pool" written at
time 0. -/
def stWitness : ServiceState := ⟨[("pool", ⟨[⟨0, 5, 5⟩], 0⟩)]⟩

/-- The running `bestTrade` accumulator of the fee-tier loop, folded over
the successful tiers' outputs: a new output replaces the best only when
strictly greater. -/
def foldBest : Option Nat → List Nat → Option Nat
  | best, [] => best
  | best, o :: os =>
    foldBest (match best with
      | some b => if b < o then some o else some b
      | none => some o) os

/-- Environment for the multi-tier selection example: tier LOW quotes 100,
any other tier quotes 105, with fresh cache entries for both pools. -/
def envWitness : QuoteEnv :=
  ⟨fun f => match f with | FeeAmount.LOW => "A" | _ => "B",
    fun f => match f with
      | FeeAmount.LOW => ⟨some (0, 1), true, some 100⟩
      | _ => ⟨some (0, 1), true, some 105⟩⟩

/-- Fresh cache entries for the two pools of the selection example. -/
def stQuote : ServiceState :=
  ⟨[("A", ⟨[⟨0, 1, 1⟩], 0⟩), ("B", ⟨[⟨0, 1, 1⟩], 0⟩)]⟩

/-- A stage rejects exactly when one of its batches fails. -/
theorem runBatches_snd_eq_none_iff (fails : List Int → Bool) (f : Int → α)
    (mk : List Int → ChainEvent) (cs : List (List Int)) :
    (runBatches fails f mk cs).2 = none ↔ ∃ c ∈ cs, fails c = true := by
  induction cs with
  | nil => simp [runBatches]
  | cons c cs ih =>
    by_cases h : fails c
    · simp [runBatches, h]
    · simp [runBatches, h, ih]

/-- A stage whose batches all succeed returns the per-call results of the
concatenated batches, in dispatch order. -/
theorem runBatches_snd_of_ok (fails : List Int → Bool) (f : Int → α)
    (mk : List Int → ChainEvent) (cs : List (List Int))
    (h : ∀ c ∈ cs, fails c = false) :
    (runBatches fails f mk cs).2 = some ((cs.flatten).map f) := by
  induction cs with
  | nil => simp [runBatches]
  | cons c cs ih =>
    have hc : fails c = false := h c (List.mem_cons_self c cs)
    have ih' := ih (fun d hd => h d (List.mem_cons_of_mem c hd))
    simp [runBatches, hc, ih']

/-- A stage that returns results had no failing batch. -/
theorem runBatches_ok_no_fail (fails : List Int → Bool) (f : Int → α)
    (mk : List Int → ChainEvent) (cs : List (List Int)) (r : List α)
    (h : (runBatches fails f mk cs).2 = some r) :
    ∀ c ∈ cs, fails c = false := by
  intro c hc
  by_contra hfail
  have : (runBatches fails f mk cs).2 = none :=
    (runBatches_snd_eq_none_iff fails f mk cs).mpr
      ⟨c, hc, by simpa using hfail⟩
  rw [this] at h
  exact Option.noConfusion h

/-- A stage that returns results returns exactly the map of the single-call
oracle over the concatenation of its batches. -/
theorem runBatches_snd_eq_some (fails : List Int → Bool) (f : Int → α)
    (mk : List Int → ChainEvent) (cs : List (List Int)) (r : List α)
    (h : (runBatches fails f mk cs).2 = some r) :
    r = (cs.flatten).map f := by
  have := runBatches_snd_of_ok fails f mk cs (runBatches_ok_no_fail fails f mk cs r h)
  rw [this] at h
  exact ((Option.some.injEq _ _).mp h).symm

/-- Every event a stage emits is a batch event for one of its batches. -/
theorem runBatches_trace_mem (fails : List Int → Bool) (f : Int → α)
    (mk : List Int → ChainEvent) (cs : List (List Int)) (e : ChainEvent)
    (h : e ∈ (runBatches fails f mk cs).1) : ∃ c ∈ cs, e = mk c := by
  induction cs with
  | nil => simp [runBatches] at h
  | cons c cs ih =>
    by_cases hc : fails c
    · simp [runBatches, hc] at h
      exact ⟨c, List.mem_cons_self c cs, h⟩
    · simp only [runBatches, hc, Bool.false_eq_true, if_false, List.mem_cons] at h
      rcases h with h | h
      · exact ⟨c, List.mem_cons_self c cs, h⟩
      · obtain ⟨d, hd, he⟩ := ih h
        exact ⟨d, List.mem_cons_of_mem c hd, he⟩

/-- A stage whose batches all succeed dispatches every batch, in order. -/
theorem runBatches_trace_of_ok (fails : List Int → Bool) (f : Int → α)
    (mk : List Int → ChainEvent) (cs : List (List Int))
    (h : ∀ c ∈ cs, fails c = false) :
    (runBatches fails f mk cs).1 = cs.map mk := by
  induction cs with
  | nil => simp [runBatches]
  | cons c cs ih =>
    have hc : fails c = false := h c (List.mem_cons_self c cs)
    have ih' := ih (fun d hd => h d (List.mem_cons_of_mem c hd))
    simp [runBatches, hc, ih']

/-- Concatenating the chunks produced by the worker recovers the pending
chunk followed by the remaining input. -/
theorem chunksGo_flatten (n : Nat) :
    ∀ (rem : List α) (cap : Nat) (acc : List α),
      (chunksGo n rem cap acc).flatten = acc ++ rem := by
  intro rem
  induction rem with
  | nil => intro cap acc; simp [chunksGo]
  | cons y ys ih =>
    intro cap acc
    cases cap with
    | zero => simp [chunksGo, ih]
    | succ k => simp [chunksGo, ih]

/-- Concatenating the slices of the batching loop recovers the input list. -/
theorem chunksOf_flatten (n : Nat) (l : List α) : (chunksOf n l).flatten = l := by
  cases l with
  | nil => simp [chunksOf]
  | cons x xs => simp [chunksOf, chunksGo_flatten]

/-- Looking up the key just written returns the fresh entry. -/
theorem find?_setAssoc_self (k : String) (e : CacheEntry)
    (l : List (String × CacheEntry)) :
    (setAssoc k e l).find? (fun p => p.1 = k) = some (k, e) := by
  induction l with
  | nil => simp [setAssoc, List.find?]
  | cons p ps ih =>
    by_cases h : p.1 = k
    · simp [setAssoc, h, List.find?]
    · simp [setAssoc, h, List.find?, ih]

/-- Writing one key leaves every other key's lookup unchanged. -/
theorem find?_setAssoc_ne (k k' : String) (e : CacheEntry)
    (l : List (String × CacheEntry)) (hne : k' ≠ k) :
    (setAssoc k e l).find? (fun p => p.1 = k') = l.find? (fun p => p.1 = k') := by
  induction l with
  | nil =>
    have hkk : ¬ (k = k') := fun hh => hne hh.symm
    simp [setAssoc, List.find?, hkk]
  | cons p ps ih =>
    by_cases h : p.1 = k
    · have h1 : ¬ (k = k') := fun hh => hne hh.symm
      have h2 : ¬ (p.1 = k') := by rw [h]; exact h1
      simp [setAssoc, h, List.find?, h1, h2]
    · by_cases h' : p.1 = k'
      · simp [setAssoc, h, List.find?, h', hne]
      · simp [setAssoc, h, List.find?, h', ih]

/-- Cache lookup after a write. -/
theorem cacheGet_cacheSet (st : ServiceState) (k k' : String) (e : CacheEntry) :
    cacheGet (cacheSet st k e) k' = if k' = k then some e else cacheGet st k' := by
  by_cases h : k' = k
  · subst h
    simp [cacheGet, cacheSet, find?_setAssoc_self]
  · simp [cacheGet, cacheSet, find?_setAssoc_ne k k' e st.tickCache h, h]

/-- On a spacing-aligned tick the negative-adjustment branch of
`_tickToWord` never fires, and both floor divisions are Euclidean divisions
for positive divisors. -/
theorem tickToWord_aligned (s t : Int) (hs : 0 < s) (hd : s ∣ t) :
    tickToWord t s = t / s / 256 := by
  unfold tickToWord
  have hmod : t % s = 0 := Int.emod_eq_zero_of_dvd hd
  simp only [hmod, ne_eq, not_true_eq_false, and_false, if_false]
  rw [Int.fdiv_eq_ediv t (le_of_lt hs), Int.fdiv_eq_ediv _ (by norm_num)]

/-- Round-trip of the bitmap decode: the tick decoded from bit `j` of word
`w` maps back to word `w`. -/
theorem tickToWord_decode (s w : Int) (j : Nat) (hs : 0 < s) (hj : j < 256) :
    tickToWord ((w * 256 + (j : Int)) * s) s = w := by
  have hd : s ∣ (w * 256 + (j : Int)) * s := dvd_mul_left s _
  rw [tickToWord_aligned s _ hs hd,
    Int.mul_ediv_cancel _ (ne_of_gt hs)]
  have hcomm : w * 256 + (j : Int) = (j : Int) + w * 256 := by ring
  rw [hcomm, Int.add_mul_ediv_right _ _ (by norm_num : (256 : Int) ≠ 0),
    Int.ediv_eq_zero_of_lt (Int.ofNat_nonneg j) (by exact_mod_cast hj), zero_add]

/-- The word of any aligned in-range tick is at least the word computed for
MIN_TICK (the adjustment can only push the minimum word lower). -/
theorem tickToWord_min_le (s t : Int) (hs : 0 < s) (hd : s ∣ t)
    (h1 : MIN_TICK ≤ t) : tickToWord MIN_TICK s ≤ tickToWord t s := by
  rw [tickToWord_aligned s t hs hd]
  unfold tickToWord
  have hfd : Int.fdiv MIN_TICK s = MIN_TICK / s := Int.fdiv_eq_ediv _ (le_of_lt hs)
  have hle : (if MIN_TICK < 0 ∧ MIN_TICK % s ≠ 0 then Int.fdiv MIN_TICK s - 1
      else Int.fdiv MIN_TICK s) ≤ t / s := by
    have hbase : MIN_TICK / s ≤ t / s := Int.ediv_le_ediv hs h1
    split
    · omega
    · omega
  calc Int.fdiv (if MIN_TICK < 0 ∧ MIN_TICK % s ≠ 0 then Int.fdiv MIN_TICK s - 1
        else Int.fdiv MIN_TICK s) 256
      = (if MIN_TICK < 0 ∧ MIN_TICK % s ≠ 0 then Int.fdiv MIN_TICK s - 1
        else Int.fdiv MIN_TICK s) / 256 := Int.fdiv_eq_ediv _ (by norm_num)
    _ ≤ t / s / 256 := Int.ediv_le_ediv (by norm_num) hle

/-- The word of any aligned in-range tick is at most the word computed for
MAX_TICK (which is positive, so never adjusted). -/
theorem tickToWord_le_max (s t : Int) (hs : 0 < s) (hd : s ∣ t)
    (h2 : t ≤ MAX_TICK) : tickToWord t s ≤ tickToWord MAX_TICK s := by
  rw [tickToWord_aligned s t hs hd]
  unfold tickToWord
  have hneg : ¬ (MAX_TICK < 0 ∧ MAX_TICK % s ≠ 0) := by
    intro h
    have : (0 : Int) < MAX_TICK := by norm_num [MAX_TICK]
    omega
  simp only [hneg, if_false]
  rw [Int.fdiv_eq_ediv MAX_TICK (le_of_lt hs), Int.fdiv_eq_ediv _ (by norm_num)]
  exact Int.ediv_le_ediv (by norm_num) (Int.ediv_le_ediv hs h2)

/-- Membership in the decode of a single bitmap word. -/
theorem mem_decodeWord {s w : Int} {b : Nat} {t : Int} :
    t ∈ decodeWord s w b ↔
      ∃ j : Nat, j < 256 ∧ b.testBit j = true ∧
        t = (w * 256 + (j : Int)) * s ∧ MIN_TICK ≤ t ∧ t ≤ MAX_TICK := by
  unfold decodeWord
  by_cases hb : b = 0
  · subst hb
    simp [Nat.zero_testBit]
  · simp only [hb, ne_eq, not_false_eq_true, if_true, List.mem_filterMap,
      List.mem_range]
    constructor
    · rintro ⟨j, hj, hsome⟩
      by_cases hbit : b.testBit j = true
      · rw [if_pos hbit] at hsome
        by_cases hbound : MIN_TICK ≤ (w * 256 + (j : Int)) * s ∧
            (w * 256 + (j : Int)) * s ≤ MAX_TICK
        · rw [if_pos hbound] at hsome
          have ht := (Option.some.injEq _ _).mp hsome
          exact ⟨j, hj, hbit, ht.symm, ht ▸ hbound.1, ht ▸ hbound.2⟩
        · rw [if_neg hbound] at hsome
          exact absurd hsome (Option.noConfusion ·)
      · rw [if_neg hbit] at hsome
        exact absurd hsome (Option.noConfusion ·)
    · rintro ⟨j, hj, hbit, rfl, hlo, hhi⟩
      exact ⟨j, hj, by rw [if_pos hbit, if_pos ⟨hlo, hhi⟩]⟩

/-- The decode of one word is strictly increasing in the bit position. -/
theorem decodeWord_pairwise (s w : Int) (b : Nat) (hs : 0 < s) :
    (decodeWord s w b).Pairwise (· < ·) := by
  unfold decodeWord
  by_cases hb : b = 0
  · simp [hb]
  · simp only [hb, ne_eq, not_false_eq_true, if_true]
    refine List.Pairwise.filterMap _ ?_ (List.pairwise_lt_range 256)
    intro j j' hjj c hc d hd
    by_cases hbit : b.testBit j = true
    · rw [if_pos hbit] at hc
      by_cases hbd : MIN_TICK ≤ (w * 256 + (j : Int)) * s ∧
          (w * 256 + (j : Int)) * s ≤ MAX_TICK
      · rw [if_pos hbd, Option.mem_some_iff] at hc
        by_cases hbit' : b.testBit j' = true
        · rw [if_pos hbit'] at hd
          by_cases hbd' : MIN_TICK ≤ (w * 256 + (j' : Int)) * s ∧
              (w * 256 + (j' : Int)) * s ≤ MAX_TICK
          · rw [if_pos hbd', Option.mem_some_iff] at hd
            subst hc
            subst hd
            have : w * 256 + (j : Int) < w * 256 + (j' : Int) := by
              have : (j : Int) < (j' : Int) := by exact_mod_cast hjj
              omega
            exact mul_lt_mul_of_pos_right this hs
          · rw [if_neg hbd'] at hd
            exact absurd hd (by simp)
        · rw [if_neg hbit'] at hd
          exact absurd hd (by simp)
      · rw [if_neg hbd] at hc
        exact absurd hc (by simp)
    · rw [if_neg hbit] at hc
      exact absurd hc (by simp)

/-- Ticks decoded from a lower word are strictly below ticks decoded from a
higher word. -/
theorem decodeWord_cross (s w w' : Int) (b b' : Nat) (hs : 0 < s)
    (hww : w < w') : ∀ x ∈ decodeWord s w b, ∀ y ∈ decodeWord s w' b', x < y := by
  intro x hx y hy
  obtain ⟨j, hj, _, rfl, _, _⟩ := mem_decodeWord.mp hx
  obtain ⟨j', hj', _, rfl, _, _⟩ := mem_decodeWord.mp hy
  have hlt : w * 256 + (j : Int) < w' * 256 + (j' : Int) := by
    have h1 : (j : Int) < 256 := by exact_mod_cast hj
    have h2 : (0 : Int) ≤ (j' : Int) := Int.ofNat_nonneg j'
    omega
  exact mul_lt_mul_of_pos_right hlt hs

/-- Membership in the scanned word range. -/
theorem mem_wordRange {a b x : Int} : x ∈ wordRange a b ↔ a ≤ x ∧ x ≤ b := by
  unfold wordRange
  simp only [List.mem_map, List.mem_range]
  constructor
  · rintro ⟨k, hk, rfl⟩
    have hk' : (k : Int) < b + 1 - a := Int.lt_toNat.mp hk
    have hk0 : (0 : Int) ≤ (k : Int) := Int.ofNat_nonneg k
    omega
  · rintro ⟨h1, h2⟩
    refine ⟨(x - a).toNat, ?_, ?_⟩
    · refine Int.lt_toNat.mpr ?_
      rw [Int.toNat_of_nonneg (by omega : (0 : Int) ≤ x - a)]
      omega
    · rw [Int.toNat_of_nonneg (by omega : (0 : Int) ≤ x - a)]
      omega

/-- The word range is strictly increasing. -/
theorem wordRange_pairwise (a b : Int) : (wordRange a b).Pairwise (· < ·) := by
  unfold wordRange
  rw [List.pairwise_map]
  refine (List.pairwise_lt_range _).imp ?_
  intro x y hxy
  show a + (x : Int) < a + (y : Int)
  omega

/-- Zipping preserves pairwise relations on the first components. -/
theorem pairwise_fst_zip {α β : Type} {R : α → α → Prop} :
    ∀ (l1 : List α) (l2 : List β), l1.Pairwise R →
      (l1.zip l2).Pairwise (fun p q => R p.1 q.1) := by
  intro l1
  induction l1 with
  | nil => intro l2 _; simp
  | cons x xs ih =>
    intro l2 h
    cases l2 with
    | nil => simp
    | cons y ys =>
      rw [List.pairwise_cons] at h
      refine List.Pairwise.cons ?_ (ih ys h.2)
      rintro ⟨a, c⟩ hq
      exact h.1 a (List.of_mem_zip hq).1

/-- The full decode (all words against their bitmaps) is strictly
increasing, for any word list that is strictly increasing and any bitmap
values. -/
theorem decodeBitmaps_pairwise (s : Int) (hs : 0 < s) (ws : List Int)
    (bs : List Nat) (hws : ws.Pairwise (· < ·)) :
    (decodeBitmaps s ws bs).Pairwise (· < ·) := by
  unfold decodeBitmaps
  rw [List.pairwise_flatten]
  constructor
  · intro l hl
    obtain ⟨pr, _, rfl⟩ := List.mem_map.mp hl
    exact decodeWord_pairwise s pr.1 pr.2 hs
  · rw [List.pairwise_map]
    exact (pairwise_fst_zip ws bs hws).imp
      (fun h => decodeWord_cross s _ _ _ _ hs h)

/-- The tick-index sort (`sort((a, b) => a - b)`) produces a nondecreasing
list. -/
theorem mergeSort_le_pairwise (l : List Int) :
    (l.mergeSort (fun a b => a ≤ b)).Pairwise (· ≤ ·) := by
  have h := @List.sorted_mergeSort Int (fun a b => decide (a ≤ b))
    (fun a b c hab hbc => by
      simp only [decide_eq_true_eq] at *
      exact le_trans hab hbc)
    (fun a b => by
      simp only [Bool.or_eq_true, decide_eq_true_eq]
      exact le_total a b) l
  exact h.imp (fun hab => of_decide_eq_true hab)

/-- C2: every tick index produced by the bitmap scan is a multiple of the
tick spacing and lies within `[MIN_TICK, MAX_TICK]`, and the produced list
is sorted strictly increasing with no duplicates — for every tick
spacing `> 0` and every sequence of bitmap words returned by the provider. -/
theorem claim_C2_scan_output_aligned_bounded_sorted (p : Provider) (s : Int)
    (hs : 0 < s) :
    (∀ t ∈ scannedIndices p s, s ∣ t ∧ MIN_TICK ≤ t ∧ t ≤ MAX_TICK) ∧
    (scannedIndices p s).Pairwise (· < ·) := by
  unfold scannedIndices
  set wps := wordRange (tickToWord MIN_TICK s) (tickToWord MAX_TICK s) with hwps
  have hdec : (decodeBitmaps s wps (wps.map p.tickBitmap)).Pairwise (· < ·) :=
    decodeBitmaps_pairwise s hs _ _ (hwps ▸ wordRange_pairwise _ _)
  have hperm := List.mergeSort_perm
    (decodeBitmaps s wps (wps.map p.tickBitmap)) (fun a b => a ≤ b)
  constructor
  · intro t ht
    have ht' : t ∈ decodeBitmaps s wps (wps.map p.tickBitmap) :=
      hperm.mem_iff.mp ht
    obtain ⟨l, hl, htl⟩ := List.mem_flatten.mp ht'
    obtain ⟨pr, _, rfl⟩ := List.mem_map.mp hl
    obtain ⟨j, _, _, rfl, hlo, hhi⟩ := mem_decodeWord.mp htl
    exact ⟨dvd_mul_left s _, hlo, hhi⟩
  · have hnd : (decodeBitmaps s wps (wps.map p.tickBitmap)).Nodup :=
      List.Sorted.nodup hdec
    have hnd2 := hperm.symm.nodup hnd
    exact List.Sorted.lt_of_le (mergeSort_le_pairwise _) hnd2

/-- Witness for C2 at spacing 1 with the trivial provider. -/
theorem claim_C2_witness :
    (∀ t ∈ scannedIndices trivialProvider 1,
      (1 : Int) ∣ t ∧ MIN_TICK ≤ t ∧ t ≤ MAX_TICK) ∧
    (scannedIndices trivialProvider 1).Pairwise (· < ·) :=
  claim_C2_scan_output_aligned_bounded_sorted trivialProvider 1 (by decide)

/-- C5: the bitmap decode is bit-exact and invertible on aligned ticks —
bit `j` of word `w` decodes to tick `(w * 256 + j) * s` (kept when within
global bounds) and nothing else, and `_tickToWord` maps that tick back to
word `w`. -/
theorem claim_C5_bitmap_decode_roundtrip (s w : Int) (b : Nat) (hs : 0 < s) :
    (∀ t : Int, t ∈ decodeWord s w b ↔
      ∃ j : Nat, j < 256 ∧ b.testBit j = true ∧
        t = (w * 256 + (j : Int)) * s ∧ MIN_TICK ≤ t ∧ t ≤ MAX_TICK) ∧
    (∀ j : Nat, j < 256 → tickToWord ((w * 256 + (j : Int)) * s) s = w) := by
  refine ⟨fun t => mem_decodeWord, fun j hj => tickToWord_decode s w j hs hj⟩

/-- Witness for C5 at word 0, bitmap 3, spacing 1. -/
theorem claim_C5_witness :
    (∀ t : Int, t ∈ decodeWord 1 0 3 ↔
      ∃ j : Nat, j < 256 ∧ (3 : Nat).testBit j = true ∧
        t = ((0 : Int) * 256 + (j : Int)) * 1 ∧ MIN_TICK ≤ t ∧ t ≤ MAX_TICK) ∧
    (∀ j : Nat, j < 256 → tickToWord (((0 : Int) * 256 + (j : Int)) * 1) 1 = 0) :=
  claim_C5_bitmap_decode_roundtrip 1 0 3 (by decide)

/-- C6: the scanned word range covers the full valid tick range: the word
position of every spacing-aligned tick within `[MIN_TICK, MAX_TICK]` lies
between the word computed for MIN_TICK and the word computed for MAX_TICK,
and hence appears in the enumerated word list. -/
theorem claim_C6_word_range_covers (s t : Int) (hs : 0 < s) (hd : s ∣ t)
    (h1 : MIN_TICK ≤ t) (h2 : t ≤ MAX_TICK) :
    tickToWord MIN_TICK s ≤ tickToWord t s ∧
    tickToWord t s ≤ tickToWord MAX_TICK s ∧
    tickToWord t s ∈ wordRange (tickToWord MIN_TICK s) (tickToWord MAX_TICK s) := by
  have hlo := tickToWord_min_le s t hs hd h1
  have hhi := tickToWord_le_max s t hs hd h2
  exact ⟨hlo, hhi, mem_wordRange.mpr ⟨hlo, hhi⟩⟩

/-- Witness for C6 at spacing 10, tick 100. -/
theorem claim_C6_witness :
    tickToWord MIN_TICK 10 ≤ tickToWord 100 10 ∧
    tickToWord 100 10 ≤ tickToWord MAX_TICK 10 ∧
    tickToWord 100 10 ∈ wordRange (tickToWord MIN_TICK 10) (tickToWord MAX_TICK 10) :=
  claim_C6_word_range_covers 10 100 (by decide) ⟨10, by decide⟩
    (by decide) (by decide)

/-- On the success path of the scan stage, the received bitmaps are exactly
the per-word bitmap values, so the decoded-and-sorted index list is
`scannedIndices`. -/
theorem scan_success_bitmaps (p : Provider) (s : Int) (bitmaps : List Nat)
    (h : (runBatches p.bitmapBatchFails p.tickBitmap ChainEvent.bitmapBatch
      (chunksOf BATCH_SIZE
        (wordRange (tickToWord MIN_TICK s) (tickToWord MAX_TICK s)))).2
      = some bitmaps) :
    bitmaps = (wordRange (tickToWord MIN_TICK s) (tickToWord MAX_TICK s)).map
      p.tickBitmap := by
  have := runBatches_snd_eq_some _ _ _ _ _ h
  rwa [chunksOf_flatten] at this

/-- Any batch failure during the on-demand pipeline makes it return the
empty list and leave the cache untouched. -/
theorem onDemand_batch_failure_aborts (p : Provider) (now : Nat)
    (st : ServiceState) (addr : String) (s : Int)
    (hfail : scanBatchFailed p s ∨ tickBatchFailed p s) :
    (onDemandFetchTicks (some p) now st addr s).ticks = [] ∧
    (onDemandFetchTicks (some p) now st addr s).state = st := by
  unfold onDemandFetchTicks
  rcases hscan : (runBatches p.bitmapBatchFails p.tickBitmap
      ChainEvent.bitmapBatch (chunksOf BATCH_SIZE
        (wordRange (tickToWord MIN_TICK s) (tickToWord MAX_TICK s)))).2
    with _ | bitmaps
  · simp [hscan]
  · have hnofail : ¬ scanBatchFailed p s := by
      intro hs'
      obtain ⟨c, hc, hcf⟩ := hs'
      have := runBatches_ok_no_fail _ _ _ _ _ hscan c hc
      rw [this] at hcf
      exact Bool.noConfusion hcf
    have htick : tickBatchFailed p s := hfail.resolve_left hnofail
    have hbm := scan_success_bitmaps p s bitmaps hscan
    subst hbm
    simp only [hscan]
    by_cases hempty : ((decodeBitmaps s
        (wordRange (tickToWord MIN_TICK s) (tickToWord MAX_TICK s))
        ((wordRange (tickToWord MIN_TICK s) (tickToWord MAX_TICK s)).map
          p.tickBitmap)).mergeSort (fun a b => a ≤ b)).isEmpty
    · simp [hempty]
    · have hidx : ((decodeBitmaps s
          (wordRange (tickToWord MIN_TICK s) (tickToWord MAX_TICK s))
          ((wordRange (tickToWord MIN_TICK s) (tickToWord MAX_TICK s)).map
            p.tickBitmap)).mergeSort (fun a b => a ≤ b)) = scannedIndices p s := rfl
      have hdat : (runBatches p.ticksBatchFails (fetchTick p)
          ChainEvent.tickBatch (chunksOf BATCH_SIZE (scannedIndices p s))).2
          = none := by
        rw [runBatches_snd_eq_none_iff]
        exact htick
      simp only [hempty, hidx, hdat]
      by_cases hnil : scannedIndices p s = [] <;> simp [hnil, hdat]

/-- The chunk worker always produces at least one chunk. -/
theorem chunksGo_ne_nil (n : Nat) :
    ∀ (rem : List α) (cap : Nat) (acc : List α), chunksGo n rem cap acc ≠ [] := by
  intro rem
  induction rem with
  | nil => intro cap acc; simp [chunksGo]
  | cons y ys ih =>
    intro cap acc
    cases cap with
    | zero => simp [chunksGo]
    | succ k =>
      simp only [chunksGo]
      exact ih k (acc ++ [y])

/-- Batching a nonempty list yields at least one batch. -/
theorem chunksOf_ne_nil (n : Nat) (x : α) (xs : List α) :
    chunksOf n (x :: xs) ≠ [] := by
  simp only [chunksOf]
  exact chunksGo_ne_nil n xs (n - 1) [x]

/-- A stage with at least one batch dispatches at least one event. -/
theorem runBatches_trace_ne_nil (fails : List Int → Bool) (f : Int → α)
    (mk : List Int → ChainEvent) (cs : List (List Int)) (h : cs ≠ []) :
    (runBatches fails f mk cs).1 ≠ [] := by
  cases cs with
  | nil => exact absurd rfl h
  | cons c cs =>
    by_cases hc : fails c <;> simp [runBatches, hc]

/-- Every on-demand run's trace starts with the full bitmap-stage trace. -/
theorem onDemand_trace_shape (p : Provider) (now : Nat) (st : ServiceState)
    (addr : String) (s : Int) :
    ∃ t2, (onDemandFetchTicks (some p) now st addr s).trace =
      (runBatches p.bitmapBatchFails p.tickBitmap ChainEvent.bitmapBatch
        (chunksOf BATCH_SIZE
          (wordRange (tickToWord MIN_TICK s) (tickToWord MAX_TICK s)))).1 ++ t2 := by
  unfold onDemandFetchTicks
  rcases hscan : (runBatches p.bitmapBatchFails p.tickBitmap
      ChainEvent.bitmapBatch (chunksOf BATCH_SIZE
        (wordRange (tickToWord MIN_TICK s) (tickToWord MAX_TICK s)))).2
    with _ | bitmaps
  · exact ⟨[], by simp [hscan]⟩
  · simp only [hscan]
    by_cases hempty : ((decodeBitmaps s
        (wordRange (tickToWord MIN_TICK s) (tickToWord MAX_TICK s))
        bitmaps).mergeSort (fun a b => a ≤ b)).isEmpty
    · exact ⟨[], by simp [hempty]⟩
    · simp only [hempty, Bool.false_eq_true, if_false]
      refine ⟨(runBatches p.ticksBatchFails (fetchTick p)
        ChainEvent.tickBatch (chunksOf BATCH_SIZE ((decodeBitmaps s
          (wordRange (tickToWord MIN_TICK s) (tickToWord MAX_TICK s))
          bitmaps).mergeSort (fun a b => a ≤ b)))).1, ?_⟩
      rcases hdat : (runBatches p.ticksBatchFails (fetchTick p)
          ChainEvent.tickBatch (chunksOf BATCH_SIZE ((decodeBitmaps s
            (wordRange (tickToWord MIN_TICK s) (tickToWord MAX_TICK s))
            bitmaps).mergeSort (fun a b => a ≤ b)))).2 with _ | ticks
      · simp [hdat]
      · by_cases hte : ticks.isEmpty <;> simp [hdat, hte]

/-- The on-demand pipeline always dispatches at least one bitmap batch when
the provider is available and the spacing is positive. -/
theorem onDemand_trace_ne_nil (p : Provider) (now : Nat) (st : ServiceState)
    (addr : String) (s : Int) (hs : 0 < s) :
    (onDemandFetchTicks (some p) now st addr s).trace ≠ [] := by
  have hmem : tickToWord 0 s ∈
      wordRange (tickToWord MIN_TICK s) (tickToWord MAX_TICK s) :=
    mem_wordRange.mpr
      ⟨tickToWord_min_le s 0 hs (dvd_zero s) (by norm_num [MIN_TICK]),
        tickToWord_le_max s 0 hs (dvd_zero s) (by norm_num [MAX_TICK])⟩
  obtain ⟨t2, ht⟩ := onDemand_trace_shape p now st addr s
  rw [ht]
  rcases hcase : wordRange (tickToWord MIN_TICK s) (tickToWord MAX_TICK s)
    with _ | ⟨w, ws⟩
  · rw [hcase] at hmem
    exact absurd hmem (List.not_mem_nil _)
  · have h1 := runBatches_trace_ne_nil p.bitmapBatchFails p.tickBitmap
      ChainEvent.bitmapBatch (chunksOf BATCH_SIZE (w :: ws))
      (chunksOf_ne_nil BATCH_SIZE w ws)
    intro happ
    exact h1 (List.append_eq_nil.mp happ).1

/-- C3: a cached tick list is served directly iff its age is strictly below
the staleness threshold (twice the 60 s background-refresh interval, so
120 s); a stale or absent entry makes the request run the on-demand
scan+fetch pipeline (whose answer, not the stale data, is returned), and
with an available provider that pipeline really dispatches chain reads. -/
theorem claim_C3_staleness_gate (mp : Option Provider) (now : Nat)
    (st : ServiceState) (addr : String) (s : Int) :
    (∀ e, cacheGet st addr = some e →
      (now - e.timestamp < REASONABLE_STALENESS_MS →
        fetchAllInitializedTicks mp now st addr s = ⟨st, e.data, []⟩) ∧
      (REASONABLE_STALENESS_MS ≤ now - e.timestamp →
        fetchAllInitializedTicks mp now st addr s =
          onDemandFetchTicks mp now st addr s)) ∧
    (cacheGet st addr = none →
      fetchAllInitializedTicks mp now st addr s =
        onDemandFetchTicks mp now st addr s) ∧
    (∀ p, mp = some p → 0 < s →
      (onDemandFetchTicks (some p) now st addr s).trace ≠ []) ∧
    REASONABLE_STALENESS_MS = 2 * DEFAULT_BACKGROUND_UPDATE_INTERVAL_MS := by
  refine ⟨?_, ?_, ?_, ?_⟩
  · intro e he
    constructor
    · intro hfresh
      unfold fetchAllInitializedTicks
      rw [he]
      simp [hfresh]
    · intro hstale
      unfold fetchAllInitializedTicks
      rw [he]
      have : ¬ (now - e.timestamp < REASONABLE_STALENESS_MS) := by omega
      simp [this]
  · intro he
    unfold fetchAllInitializedTicks
    rw [he]
  · intro p hp hs
    subst hp
    exact onDemand_trace_ne_nil p now st addr s hs
  · decide

/-- C1: if any batched chain-read fails during an on-demand pipeline run —
a bitmap batch in the scan stage or a tick-data batch in the fetch stage —
the whole run for that pool aborts: the returned tick list is empty, so no
subset of the successfully fetched ticks is ever returned, and the cache is
left untouched. -/
theorem claim_C1_batch_failure_aborts_run (p : Provider) (now : Nat)
    (st : ServiceState) (addr : String) (s : Int)
    (hfail : scanBatchFailed p s ∨ tickBatchFailed p s) :
    (onDemandFetchTicks (some p) now st addr s).ticks = [] ∧
    (onDemandFetchTicks (some p) now st addr s).state = st :=
  onDemand_batch_failure_aborts p now st addr s hfail

/-- Witness for C1: with a rejecting bitmap batch the run returns no ticks
and leaves the cache as it was. -/
theorem claim_C1_witness :
    (onDemandFetchTicks (some failingProvider) 0 initialState "pool" 1000000).ticks
      = [] ∧
    (onDemandFetchTicks (some failingProvider) 0 initialState "pool" 1000000).state
      = initialState :=
  claim_C1_batch_failure_aborts_run failingProvider 0 initialState "pool" 1000000
    (Or.inl ⟨[-1, 0], by decide, rfl⟩)

/-- Witness for C3: the spec's example — refresh interval 60 s, threshold
120 s, an entry aged 150 s triggers the on-demand refetch rather than being
served. -/
theorem claim_C3_witness :
    fetchAllInitializedTicks (some trivialProvider) 150000 stWitness "pool" 1 =
      onDemandFetchTicks (some trivialProvider) 150000 stWitness "pool" 1 :=
  ((claim_C3_staleness_gate (some trivialProvider) 150000 stWitness "pool" 1).1
    ⟨[⟨0, 5, 5⟩], 0⟩ rfl).2 (by decide)

/-- When the cache cannot serve the request, `_fetchAllInitializedTicks`
is exactly the on-demand fetch. -/
theorem fetchAll_eq_onDemand (mp : Option Provider) (now : Nat)
    (st : ServiceState) (addr : String) (s : Int)
    (h : staleOrMiss st addr now) :
    fetchAllInitializedTicks mp now st addr s =
      onDemandFetchTicks mp now st addr s := by
  unfold fetchAllInitializedTicks
  rcases h with h | ⟨e, he, hstale⟩
  · rw [h]
  · rw [he]
    have hlt : ¬ (now - e.timestamp < REASONABLE_STALENESS_MS) := by omega
    simp [hlt]

/-- C10: on the on-demand path the fetch is total over provider failures
and collapses them into the empty result — provider-initialization failure,
a bitmap-batch error and a tick-data-batch error all yield the empty list
(leaving the cache untouched), and an empty tick list makes the quote loop
skip the fee tier exactly as it skips a pool with no initialized ticks. -/
theorem claim_C10_provider_failure_collapses_to_empty (mp : Option Provider)
    (now : Nat) (st : ServiceState) (addr : String) (s : Int)
    (hpath : staleOrMiss st addr now) :
    (mp = none →
      fetchAllInitializedTicks mp now st addr s = ⟨st, [], []⟩) ∧
    (∀ p, mp = some p → scanBatchFailed p s ∨ tickBatchFailed p s →
      (fetchAllInitializedTicks mp now st addr s).ticks = [] ∧
      (fetchAllInitializedTicks mp now st addr s).state = st) ∧
    (∀ td : TierData, (fetchAllInitializedTicks mp now st addr s).ticks = [] →
      (evalTier mp now st addr s td).2 = none) := by
  refine ⟨?_, ?_, ?_⟩
  · intro hmp
    subst hmp
    rw [fetchAll_eq_onDemand none now st addr s hpath]
    rfl
  · intro p hmp hfail
    subst hmp
    rw [fetchAll_eq_onDemand (some p) now st addr s hpath]
    exact onDemand_batch_failure_aborts p now st addr s hfail
  · intro td hticks
    unfold evalTier
    rcases td.slot0AndLiquidity with _ | ⟨slot0, liq⟩
    · rfl
    · simp [hticks]

/-- Witness for C10: a failing bitmap batch yields the empty list on a cache
miss, and that empty list makes the tier be skipped. -/
theorem claim_C10_witness :
    (fetchAllInitializedTicks (some failingProvider) 0 initialState "pool" 1000000).ticks
      = [] ∧
    (fetchAllInitializedTicks (some failingProvider) 0 initialState "pool" 1000000).state
      = initialState :=
  (claim_C10_provider_failure_collapses_to_empty (some failingProvider) 0
      initialState "pool" 1000000 (Or.inl rfl)).2.1
    failingProvider rfl (Or.inl ⟨[-1, 0], by decide, rfl⟩)

/-- C8: a failed background refresh leaves the whole cache — in particular
the pool's prior entry, data and timestamp — exactly as it was: when the
provider is unavailable, when a bitmap or tick-data batch rejects, or when
the scan decodes no indices, `_refreshTickDataForPool` returns the state
unchanged (the error is only logged, never thrown to callers). -/
theorem claim_C8_failed_refresh_leaves_cache (mp : Option Provider) (now : Nat)
    (st : ServiceState) (addr : String) (s : Int) :
    (mp = none → refreshTickDataForPool mp now st addr s = st) ∧
    (∀ p, mp = some p →
      scanBatchFailed p s ∨ tickBatchFailed p s ∨ scannedIndices p s = [] →
      refreshTickDataForPool mp now st addr s = st) := by
  constructor
  · intro hmp
    subst hmp
    rfl
  · intro p hmp hfail
    subst hmp
    unfold refreshTickDataForPool
    rcases hscan : (runBatches p.bitmapBatchFails p.tickBitmap
        ChainEvent.bitmapBatch (chunksOf BATCH_SIZE
          (wordRange (tickToWord MIN_TICK s) (tickToWord MAX_TICK s)))).2
      with _ | bitmaps
    · simp [hscan]
    · have hnofail : ¬ scanBatchFailed p s := by
        intro hs'
        obtain ⟨c, hc, hcf⟩ := hs'
        have := runBatches_ok_no_fail _ _ _ _ _ hscan c hc
        rw [this] at hcf
        exact Bool.noConfusion hcf
      have hbm := scan_success_bitmaps p s bitmaps hscan
      subst hbm
      simp only [hscan]
      have hidx : ((decodeBitmaps s
          (wordRange (tickToWord MIN_TICK s) (tickToWord MAX_TICK s))
          ((wordRange (tickToWord MIN_TICK s) (tickToWord MAX_TICK s)).map
            p.tickBitmap)).mergeSort (fun a b => a ≤ b)) = scannedIndices p s := rfl
      by_cases hempty : (scannedIndices p s).isEmpty
      · simp [hidx, hempty]
      · have hne : scannedIndices p s ≠ [] := by
          intro hq
          rw [hq] at hempty
          exact hempty rfl
        have htick : tickBatchFailed p s :=
          ((hfail.resolve_left hnofail).resolve_right hne)
        have hdat : (runBatches p.ticksBatchFails (fetchTick p)
            ChainEvent.tickBatch (chunksOf BATCH_SIZE (scannedIndices p s))).2
            = none := by
          rw [runBatches_snd_eq_none_iff]
          exact htick
        simp [hidx, hempty, hdat]

/-- Witness for C8: a failing bitmap batch leaves a nonempty cache state
untouched. -/
theorem claim_C8_witness :
    refreshTickDataForPool (some failingProvider) 7 stWitness "pool" 1000000
      = stWitness :=
  (claim_C8_failed_refresh_leaves_cache (some failingProvider) 7 stWitness
      "pool" 1000000).2 failingProvider rfl (Or.inl ⟨[-1, 0], by decide, rfl⟩)

/-- The on-demand fetch either leaves the state alone or replaces the
pool's entry with a nonempty freshly fetched list stamped `now`. -/
theorem onDemand_state_cases (mp : Option Provider) (now : Nat)
    (st : ServiceState) (addr : String) (s : Int) :
    (onDemandFetchTicks mp now st addr s).state = st ∨
    ∃ ticks, ticks ≠ [] ∧
      (onDemandFetchTicks mp now st addr s).state =
        cacheSet st addr ⟨ticks, now⟩ := by
  rcases mp with _ | p
  · exact Or.inl rfl
  · unfold onDemandFetchTicks
    rcases hscan : (runBatches p.bitmapBatchFails p.tickBitmap
        ChainEvent.bitmapBatch (chunksOf BATCH_SIZE
          (wordRange (tickToWord MIN_TICK s) (tickToWord MAX_TICK s)))).2
      with _ | bitmaps
    · exact Or.inl (by simp [hscan])
    · simp only [hscan]
      by_cases hempty : ((decodeBitmaps s
          (wordRange (tickToWord MIN_TICK s) (tickToWord MAX_TICK s))
          bitmaps).mergeSort (fun a b => a ≤ b)).isEmpty
      · exact Or.inl (by simp [hempty])
      · simp only [hempty, Bool.false_eq_true, if_false]
        rcases hdat : (runBatches p.ticksBatchFails (fetchTick p)
            ChainEvent.tickBatch (chunksOf BATCH_SIZE ((decodeBitmaps s
              (wordRange (tickToWord MIN_TICK s) (tickToWord MAX_TICK s))
              bitmaps).mergeSort (fun a b => a ≤ b)))).2 with _ | ticks
        · exact Or.inl (by simp [hdat])
        · by_cases hte : ticks.isEmpty
          · exact Or.inl (by simp [hdat, hte])
          · refine Or.inr ⟨ticks, ?_, ?_⟩
            · intro hq
              rw [hq] at hte
              exact hte rfl
            · simp [hdat, hte]

/-- The background refresh either leaves the state alone or replaces the
pool's entry with a nonempty freshly fetched list stamped `now`. -/
theorem refresh_state_cases (mp : Option Provider) (now : Nat)
    (st : ServiceState) (addr : String) (s : Int) :
    refreshTickDataForPool mp now st addr s = st ∨
    ∃ ticks, ticks ≠ [] ∧
      refreshTickDataForPool mp now st addr s = cacheSet st addr ⟨ticks, now⟩ := by
  rcases mp with _ | p
  · exact Or.inl rfl
  · unfold refreshTickDataForPool
    rcases hscan : (runBatches p.bitmapBatchFails p.tickBitmap
        ChainEvent.bitmapBatch (chunksOf BATCH_SIZE
          (wordRange (tickToWord MIN_TICK s) (tickToWord MAX_TICK s)))).2
      with _ | bitmaps
    · exact Or.inl (by simp [hscan])
    · simp only [hscan]
      by_cases hempty : ((decodeBitmaps s
          (wordRange (tickToWord MIN_TICK s) (tickToWord MAX_TICK s))
          bitmaps).mergeSort (fun a b => a ≤ b)).isEmpty
      · exact Or.inl (by simp [hempty])
      · simp only [hempty, Bool.false_eq_true, if_false]
        rcases hdat : (runBatches p.ticksBatchFails (fetchTick p)
            ChainEvent.tickBatch (chunksOf BATCH_SIZE ((decodeBitmaps s
              (wordRange (tickToWord MIN_TICK s) (tickToWord MAX_TICK s))
              bitmaps).mergeSort (fun a b => a ≤ b)))).2 with _ | ticks
        · exact Or.inl (by simp [hdat])
        · by_cases hte : ticks.isEmpty
          · exact Or.inl (by simp [hdat, hte])
          · refine Or.inr ⟨ticks, ?_, ?_⟩
            · intro hq
              rw [hq] at hte
              exact hte rfl
            · simp [hdat, hte]

/-- Writing a nonempty list preserves the nonempty-entries invariant. -/
theorem cacheInv_cacheSet (st : ServiceState) (k : String) (ticks : List Tick)
    (ts : Nat) (hne : ticks ≠ []) (hinv : cacheInv st) :
    cacheInv (cacheSet st k ⟨ticks, ts⟩) := by
  intro k' e' he'
  rw [cacheGet_cacheSet] at he'
  by_cases hk : k' = k
  · rw [if_pos hk] at he'
    have := (Option.some.injEq _ _).mp he'
    rw [← this]
    exact hne
  · rw [if_neg hk] at he'
    exact hinv k' e' he'

/-- The empty initial cache satisfies the nonempty-entries invariant. -/
theorem cacheInv_initialState : cacheInv initialState := by
  intro k e he
  simp [cacheGet, initialState, List.find?] at he

/-- C9: every cache entry ever stored holds a nonempty tick list — the
invariant holds of the initial state and is preserved by both writers (the
background refresh and the on-demand fetch), so every successful cache read
yields a list with at least one Tick. -/
theorem claim_C9_cache_entries_nonempty (mp : Option Provider) (now : Nat)
    (st : ServiceState) (addr : String) (s : Int) (hinv : cacheInv st) :
    cacheInv (refreshTickDataForPool mp now st addr s) ∧
    cacheInv (fetchAllInitializedTicks mp now st addr s).state ∧
    cacheInv initialState := by
  refine ⟨?_, ?_, cacheInv_initialState⟩
  · rcases refresh_state_cases mp now st addr s with h | ⟨ticks, hne, h⟩
    · rw [h]; exact hinv
    · rw [h]; exact cacheInv_cacheSet st addr ticks now hne hinv
  · unfold fetchAllInitializedTicks
    rcases hget : cacheGet st addr with _ | e
    · rcases onDemand_state_cases mp now st addr s with h | ⟨ticks, hne, h⟩
      · rw [h]; exact hinv
      · rw [h]; exact cacheInv_cacheSet st addr ticks now hne hinv
    · by_cases hfresh : now - e.timestamp < REASONABLE_STALENESS_MS
      · simp only [hfresh, if_true]
        exact hinv
      · simp only [hfresh, if_false]
        rcases onDemand_state_cases mp now st addr s with h | ⟨ticks, hne, h⟩
        · rw [h]; exact hinv
        · rw [h]; exact cacheInv_cacheSet st addr ticks now hne hinv

/-- Witness for C9 at the initial state with the trivial provider. -/
theorem claim_C9_witness :
    cacheInv (refreshTickDataForPool (some trivialProvider) 3 initialState "pool" 1000000) ∧
    cacheInv (fetchAllInitializedTicks (some trivialProvider) 3 initialState "pool" 1000000).state ∧
    cacheInv initialState :=
  claim_C9_cache_entries_nonempty (some trivialProvider) 3 initialState "pool"
    1000000 cacheInv_initialState

/-- C7: tick-data fetching preserves input-order alignment — for every
input index list and every batch partitioning of it, concatenating the
per-batch results in dispatch order yields exactly one Tick per input index,
index-aligned and carrying that call's liquidity values; and within one
on-demand run every dispatched tick-data batch comes after the bitmap-stage
trace, which is complete whenever any tick-data batch was dispatched. -/
theorem claim_C7_alignment_and_stage_order (p : Provider) (now : Nat)
    (st : ServiceState) (addr : String) (s : Int) :
    (∀ (idxs : List Int) (chunks : List (List Int)), chunks.flatten = idxs →
      (∀ c ∈ chunks, p.ticksBatchFails c = false) →
      (runBatches p.ticksBatchFails (fetchTick p) ChainEvent.tickBatch chunks).2 =
        some (idxs.map (fetchTick p)) ∧
      (idxs.map (fetchTick p)).map Tick.index = idxs) ∧
    (∃ t1 t2, (onDemandFetchTicks (some p) now st addr s).trace = t1 ++ t2 ∧
      (∀ e ∈ t1, ∃ c, e = ChainEvent.bitmapBatch c) ∧
      (∀ e ∈ t2, ∃ c, e = ChainEvent.tickBatch c) ∧
      (t2 ≠ [] → t1 = (chunksOf BATCH_SIZE
        (wordRange (tickToWord MIN_TICK s) (tickToWord MAX_TICK s))).map
          ChainEvent.bitmapBatch)) := by
  constructor
  · intro idxs chunks hflat hok
    constructor
    · rw [runBatches_snd_of_ok p.ticksBatchFails (fetchTick p)
        ChainEvent.tickBatch chunks hok, hflat]
    · rw [List.map_map]
      have : (Tick.index ∘ fetchTick p) = fun i => i := by
        funext i
        rfl
      rw [this, List.map_id']
  · unfold onDemandFetchTicks
    rcases hscan : (runBatches p.bitmapBatchFails p.tickBitmap
        ChainEvent.bitmapBatch (chunksOf BATCH_SIZE
          (wordRange (tickToWord MIN_TICK s) (tickToWord MAX_TICK s)))).2
      with _ | bitmaps
    · refine ⟨(runBatches p.bitmapBatchFails p.tickBitmap
        ChainEvent.bitmapBatch (chunksOf BATCH_SIZE
          (wordRange (tickToWord MIN_TICK s) (tickToWord MAX_TICK s)))).1, [],
        by simp [hscan], ?_, by simp, by simp⟩
      intro e he
      obtain ⟨c, _, rfl⟩ := runBatches_trace_mem _ _ _ _ e he
      exact ⟨c, rfl⟩
    · have hok : ∀ c ∈ chunksOf BATCH_SIZE
          (wordRange (tickToWord MIN_TICK s) (tickToWord MAX_TICK s)),
          p.bitmapBatchFails c = false :=
        runBatches_ok_no_fail _ _ _ _ _ hscan
      have htr : (runBatches p.bitmapBatchFails p.tickBitmap
          ChainEvent.bitmapBatch (chunksOf BATCH_SIZE
            (wordRange (tickToWord MIN_TICK s) (tickToWord MAX_TICK s)))).1 =
          (chunksOf BATCH_SIZE
            (wordRange (tickToWord MIN_TICK s) (tickToWord MAX_TICK s))).map
            ChainEvent.bitmapBatch :=
        runBatches_trace_of_ok _ _ _ _ hok
      simp only [hscan]
      by_cases hempty : ((decodeBitmaps s
          (wordRange (tickToWord MIN_TICK s) (tickToWord MAX_TICK s))
          bitmaps).mergeSort (fun a b => a ≤ b)).isEmpty
      · refine ⟨(runBatches p.bitmapBatchFails p.tickBitmap
          ChainEvent.bitmapBatch (chunksOf BATCH_SIZE
            (wordRange (tickToWord MIN_TICK s) (tickToWord MAX_TICK s)))).1, [],
          by simp [hempty], ?_, by simp, by simp⟩
        intro e he
        obtain ⟨c, _, rfl⟩ := runBatches_trace_mem _ _ _ _ e he
        exact ⟨c, rfl⟩
      · simp only [hempty, Bool.false_eq_true, if_false]
        refine ⟨(runBatches p.bitmapBatchFails p.tickBitmap
            ChainEvent.bitmapBatch (chunksOf BATCH_SIZE
              (wordRange (tickToWord MIN_TICK s) (tickToWord MAX_TICK s)))).1,
          (runBatches p.ticksBatchFails (fetchTick p) ChainEvent.tickBatch
            (chunksOf BATCH_SIZE ((decodeBitmaps s
              (wordRange (tickToWord MIN_TICK s) (tickToWord MAX_TICK s))
              bitmaps).mergeSort (fun a b => a ≤ b)))).1, ?_, ?_, ?_, ?_⟩
        · rcases hdat : (runBatches p.ticksBatchFails (fetchTick p)
              ChainEvent.tickBatch (chunksOf BATCH_SIZE ((decodeBitmaps s
                (wordRange (tickToWord MIN_TICK s) (tickToWord MAX_TICK s))
                bitmaps).mergeSort (fun a b => a ≤ b)))).2 with _ | ticks
          · simp [hdat]
          · by_cases hte : ticks.isEmpty <;> simp [hdat, hte]
        · intro e he
          obtain ⟨c, _, rfl⟩ := runBatches_trace_mem _ _ _ _ e he
          exact ⟨c, rfl⟩
        · intro e he
          obtain ⟨c, _, rfl⟩ := runBatches_trace_mem _ _ _ _ e he
          exact ⟨c, rfl⟩
        · intro _
          exact htr

/-- Witness for C7: two singleton batches of a two-index input stay aligned. -/
theorem claim_C7_witness :
    (runBatches trivialProvider.ticksBatchFails (fetchTick trivialProvider)
        ChainEvent.tickBatch [[10], [20]]).2 =
      some (([10, 20] : List Int).map (fetchTick trivialProvider)) ∧
    (([10, 20] : List Int).map (fetchTick trivialProvider)).map Tick.index
      = [10, 20] :=
  (claim_C7_alignment_and_stage_order trivialProvider 0 initialState "pool" 1).1
    [10, 20] [[10], [20]] (by decide) (by decide)

/-- The loop's final best is the fold of the successful outputs onto the
initial accumulator. -/
theorem bestTradeLoop_snd (mp : Option Provider) (now : Nat) (env : QuoteEnv) :
    ∀ (tiers : List FeeAmount) (st : ServiceState) (best : Option Nat),
      (bestTradeLoop mp now env tiers st best).2 =
        foldBest best (tierOutcomes mp now env tiers st) := by
  intro tiers
  induction tiers with
  | nil => intro st best; rfl
  | cons f rest ih =>
    intro st best
    simp only [bestTradeLoop, tierOutcomes]
    rcases hr : (evalTier mp now st (env.poolAddress f) (feeToTickSpacing f)
        (env.chain f)).2 with _ | out
    · rw [ih]
    · rw [ih]
      rcases best with _ | b <;> rfl

/-- The fold is `none` exactly when it starts from `none` and sees no
output. -/
theorem foldBest_eq_none (l : List Nat) :
    ∀ best : Option Nat, foldBest best l = none ↔ best = none ∧ l = [] := by
  induction l with
  | nil => intro best; simp [foldBest]
  | cons o os ih =>
    intro best
    simp only [foldBest]
    rcases best with _ | b
    · rw [ih]
      simp
    · rw [ih]
      by_cases h : b < o <;> simp [h]

/-- Whatever the fold returns is one of the folded outputs (or the initial
accumulator) and is an upper bound of all folded outputs and of the initial
accumulator. -/
theorem foldBest_spec (l : List Nat) :
    ∀ (best : Option Nat) (v : Nat), foldBest best l = some v →
      (v ∈ l ∨ best = some v) ∧ (∀ u ∈ l, u ≤ v) ∧
      (∀ b, best = some b → b ≤ v) := by
  induction l with
  | nil =>
    intro best v h
    simp only [foldBest] at h
    refine ⟨Or.inr h, by simp, ?_⟩
    intro b hb
    rw [hb] at h
    have := (Option.some.injEq _ _).mp h
    omega
  | cons o os ih =>
    intro best v h
    simp only [foldBest] at h
    rcases best with _ | b
    · obtain ⟨hmem, hub, hacc⟩ := ih (some o) v h
      have hov : o ≤ v := hacc o rfl
      refine ⟨?_, ?_, ?_⟩
      · rcases hmem with hm | hm
        · exact Or.inl (List.mem_cons_of_mem o hm)
        · exact Or.inl (by
            have := (Option.some.injEq _ _).mp hm
            rw [← this]
            exact List.mem_cons_self o os)
      · intro u hu
        rcases List.mem_cons.mp hu with rfl | hu'
        · exact hov
        · exact hub u hu'
      · intro b hb
        exact Option.noConfusion hb
    · have h' : foldBest (if b < o then some o else some b) os = some v := h
      by_cases hbo : b < o
      · rw [if_pos hbo] at h'
        obtain ⟨hmem, hub, hacc⟩ := ih (some o) v h' 
        have hov : o ≤ v := hacc o rfl
        refine ⟨?_, ?_, ?_⟩
        · rcases hmem with hm | hm
          · exact Or.inl (List.mem_cons_of_mem o hm)
          · exact Or.inl (by
              have := (Option.some.injEq _ _).mp hm
              rw [← this]
              exact List.mem_cons_self o os)
        · intro u hu
          rcases List.mem_cons.mp hu with rfl | hu'
          · exact hov
          · exact hub u hu'
        · intro b' hb'
          have := (Option.some.injEq _ _).mp hb'
          omega
      · rw [if_neg hbo] at h'
        obtain ⟨hmem, hub, hacc⟩ := ih (some b) v h' 
        have hbv : b ≤ v := hacc b rfl
        refine ⟨?_, ?_, ?_⟩
        · rcases hmem with hm | hm
          · exact Or.inl (List.mem_cons_of_mem o hm)
          · exact Or.inr hm
        · intro u hu
          rcases List.mem_cons.mp hu with rfl | hu'
          · omega
          · exact hub u hu'
        · intro b' hb'
          have := (Option.some.injEq _ _).mp hb'
          omega

/-- The quote result is the fold of the successful tiers' outputs: the best
output when there is one, `NoRouteFound` otherwise. -/
theorem getBest_snd (p : Provider) (now : Nat) (env : QuoteEnv)
    (tiers : List FeeAmount) (st : ServiceState) :
    (getBestV3TradeExactIn (some p) now env tiers st).2 =
      match foldBest none (tierOutcomes (some p) now env tiers st) with
      | some b => Except.ok b
      | none => Except.error QuoteError.noRouteFound := by
  unfold getBestV3TradeExactIn
  rw [← bestTradeLoop_snd (some p) now env tiers st none]
  show (match (bestTradeLoop (some p) now env tiers st none).2 with
      | some best => ((bestTradeLoop (some p) now env tiers st none).1,
          Except.ok best)
      | none => ((bestTradeLoop (some p) now env tiers st none).1,
          Except.error QuoteError.noRouteFound)).2 =
    match (bestTradeLoop (some p) now env tiers st none).2 with
    | some b => Except.ok b
    | none => Except.error QuoteError.noRouteFound
  rcases (bestTradeLoop (some p) now env tiers st none).2 with _ | best
  · rfl
  · rfl

/-- C4: best-quote selection evaluates every candidate fee tier; a tier that
fails at `slot0`/`liquidity`, has zero liquidity, an empty tick list, or a
pool-construction/trade failure is skipped without aborting the others; the
returned trade carries the greatest output among the tiers that succeeded;
when every attempted tier fails or is empty the call fails with
`NoRouteFound`; and an unavailable multicall provider fails with the
initialization error instead. -/
theorem claim_C4_best_quote_selection (p : Provider) (now : Nat)
    (env : QuoteEnv) (tiers : List FeeAmount) (st : ServiceState) :
    ((getBestV3TradeExactIn (some p) now env tiers st).2 =
        Except.error QuoteError.noRouteFound ↔
      tierOutcomes (some p) now env tiers st = []) ∧
    (∀ v, (getBestV3TradeExactIn (some p) now env tiers st).2 = Except.ok v →
      v ∈ tierOutcomes (some p) now env tiers st ∧
      ∀ u ∈ tierOutcomes (some p) now env tiers st, u ≤ v) ∧
    (getBestV3TradeExactIn none now env tiers st).2 =
      Except.error QuoteError.multicallInitFailed := by
  refine ⟨?_, ?_, rfl⟩
  · rw [getBest_snd]
    constructor
    · intro herr
      rcases hf : foldBest none (tierOutcomes (some p) now env tiers st)
        with _ | b
      · exact ((foldBest_eq_none _ none).mp hf).2
      · rw [hf] at herr
        exact absurd herr (by simp)
    · intro houts
      rw [houts]
      rfl
  · intro v hok
    rw [getBest_snd] at hok
    rcases hf : foldBest none (tierOutcomes (some p) now env tiers st)
      with _ | b
    · rw [hf] at hok
      exact absurd hok (by simp)
    · rw [hf] at hok
      have hbv : b = v := by injection hok
      subst hbv
      obtain ⟨hmem, hub, _⟩ := foldBest_spec _ none b hf
      refine ⟨?_, hub⟩
      rcases hmem with hm | hm
      · exact hm
      · exact absurd hm (by simp)

/-- Witness for C4: with tier outputs 100 and 105, the returned output 105
is one of the successful outputs and the greatest of them. -/
theorem claim_C4_witness :
    105 ∈ tierOutcomes (some trivialProvider) 0 envWitness
        [FeeAmount.LOW, FeeAmount.MEDIUM] stQuote ∧
    ∀ u ∈ tierOutcomes (some trivialProvider) 0 envWitness
        [FeeAmount.LOW, FeeAmount.MEDIUM] stQuote, u ≤ 105 :=
  (claim_C4_best_quote_selection trivialProvider 0 envWitness
      [FeeAmount.LOW, FeeAmount.MEDIUM] stQuote).2.1 105 (by rfl)
